import Mathlib

/-!
Verification of the council orchestration core in `backend/council.py`.

The Python code is shallowly embedded: pure text processing is translated
to executable Lean functions over `List Char` / `String`; the one external
collaborator, `query_model`, returns its result as data (`Option
QueryResponse`), so every pipeline function takes the outcomes of its
model calls as explicit parameters.  `json.loads` (Python standard
library, not part of this repository) is abstracted as an oracle
`String → DecodeOutcome` describing the only outcomes the code
distinguishes: an exception, a decoded object without a `personas` key,
and a decoded object with one.

Python regular-expression scanning (`re.findall`) is embedded as
left-to-right, non-overlapping scanners.  The two patterns used by the
code, `Response [A-Z]` and `\d+\.\s*Response [A-Z]`, are such that greedy
matching never needs backtracking (a digit is never `.`, whitespace is
never `R`), so the deterministic maximal-munch scanners below compute
exactly Python's matches.  `\d` and `\s` are modelled by their ASCII
meaning.  The scanners recurse on a fuel argument equal to the input
length so that they are structurally recursive (hence kernel-computable);
the lemma `scanResp_eq` etc. recover the natural unfolding.
-/

/-- Characters Python `\s` matches, restricted to ASCII. -/
def isPySpace (c : Char) : Bool :=
  c = ' ' || c = '\t' || c = '\n' || c = '\r' || c = '\x0b' || c = '\x0c'

/-- Match a literal pattern at the head of the input; `some rest` when the
input is the pattern followed by `rest`. -/
def dropLit : List Char → List Char → Option (List Char)
  | [], l => some l
  | _ :: _, [] => none
  | p :: ps, c :: cs => if c = p then dropLit ps cs else none

/-- The nine literal characters of `Response ` (with the trailing space). -/
def respLit : List Char := ['R', 'e', 's', 'p', 'o', 'n', 's', 'e', ' ']

/-- The string `Response X` for an uppercase letter `X`. -/
def respStr (c : Char) : String := String.mk (respLit ++ [c])

/-- Match the regex `Response [A-Z]` at the head of the input:
`some (letter, rest)` on success. -/
def matchResp (l : List Char) : Option (Char × List Char) :=
  match dropLit respLit l with
  | some (c :: rest) => if c.isUpper then some (c, rest) else none
  | _ => none

/-- Fuel-indexed scanner for `re.findall(r'Response [A-Z]', ·)`: try a match
at each position from the left; on success emit it and continue after the
match, otherwise advance one character.  Adequate when fuel ≥ length. -/
def scanRespGo : Nat → List Char → List String
  | _, [] => []
  | 0, _ :: _ => []
  | n + 1, c :: cs =>
    match matchResp (c :: cs) with
    | some (d, rest) => respStr d :: scanRespGo n rest
    | none => scanRespGo n cs

/-- `re.findall(r'Response [A-Z]', text)`: all non-overlapping matches in
order of appearance. -/
def scanResp (l : List Char) : List String := scanRespGo l.length l

/-- Match the regex `\d+\.\s*Response [A-Z]` at the head of the input:
`some (matched, rest)` where `matched` is the whole matched run.  Greedy
`\d+` and `\s*` need no backtracking for this pattern (see module note). -/
def matchNumbered (l : List Char) : Option (List Char × List Char) :=
  let ds := l.takeWhile Char.isDigit
  let r1 := l.dropWhile Char.isDigit
  match ds with
  | [] => none
  | _ :: _ =>
    match r1 with
    | '.' :: r2 =>
      let sp := r2.takeWhile isPySpace
      let r3 := r2.dropWhile isPySpace
      match matchResp r3 with
      | some (c, rest) => some (ds ++ '.' :: (sp ++ respLit ++ [c]), rest)
      | none => none
    | _ => none

/-- Fuel-indexed scanner for `re.findall(r'\d+\.\s*Response [A-Z]', ·)`. -/
def scanNumberedGo : Nat → List Char → List (List Char)
  | _, [] => []
  | 0, _ :: _ => []
  | n + 1, c :: cs =>
    match matchNumbered (c :: cs) with
    | some (m, rest) => m :: scanNumberedGo n rest
    | none => scanNumberedGo n cs

/-- `re.findall(r'\d+\.\s*Response [A-Z]', text)`: the matched runs in order
of appearance. -/
def scanNumbered (l : List Char) : List (List Char) := scanNumberedGo l.length l

/-- Leftmost occurrence of a non-empty separator: scan positions from the
left, try the literal at each. -/
def splitFirstGo (sep : List Char) : List Char → Option (List Char × List Char)
  | [] => none
  | c :: cs =>
    match dropLit sep (c :: cs) with
    | some rest => some ([], rest)
    | none =>
      match splitFirstGo sep cs with
      | some (b, a) => some (c :: b, a)
      | none => none

/-- First occurrence of a separator in the input: `some (before, after)`
splits the input around the leftmost occurrence.  `none` for an empty
separator (Python `str.split` raises there; the code never does that). -/
def splitFirst (sep l : List Char) : Option (List Char × List Char) :=
  match sep with
  | [] => none
  | s0 :: ss => splitFirstGo (s0 :: ss) l

/-- Fuel-indexed Python `str.split(sep)`. -/
def pySplitGo (sep : List Char) : Nat → List Char → List (List Char)
  | 0, l => [l]
  | n + 1, l =>
    match splitFirst sep l with
    | none => [l]
    | some (b, a) => b :: pySplitGo sep n a

/-- Python `text.split(sep)` for a non-empty separator: the segments between
consecutive non-overlapping occurrences, scanned from the left. -/
def pySplit (sep l : List Char) : List (List Char) := pySplitGo sep l.length l

/-- Python `sep in text` (substring containment). -/
def containsSub (sep l : List Char) : Bool := (splitFirst sep l).isSome

/-- The literal marker `FINAL RANKING:`. -/
def markerLit : List Char := "FINAL RANKING:".data

/-- Embeds `parse_ranking_from_text` (council.py lines 263-294).  When the
marker is present, Python takes `parts[1]` of the split — the segment
between the first and second marker occurrences — and extracts numbered
matches from it; each numbered match `m` yields
`re.search(r'Response [A-Z]', m).group()`, its first `Response X` run
(Python would raise if there were none, which cannot happen since every
numbered match ends in one; `filterMap` with `head?` computes the same
list).  With no numbered match the segment's plain `Response X` runs are
returned; with fewer than 2 parts (impossible when the marker is present)
or no marker, the whole text is scanned. -/
def parse_ranking_from_text (ranking_text : String) : List String :=
  let l := ranking_text.data
  if containsSub markerLit l then
    match pySplit markerLit l with
    | _ :: sect :: _ =>
      let numbered := scanNumbered sect
      if numbered = [] then scanResp sect
      else numbered.filterMap (fun m => (scanResp m).head?)
    | _ => scanResp l
  else scanResp l

/-!
Data model and configuration (`backend/config.py` and the dict shapes of
`backend/council.py`).  Apostrophes inside configured strings are written
with the escape `\x27`.
-/

/-- One configured persona of `PERSONAS` in config.py (the dict value,
which has no `id` key). -/
structure PersonaConfig where
  name : String
  role : String
  icon : String
  style : String
  model : String
  system_prompt : String
deriving DecidableEq, Repr

/-- A working persona of a turn: the shape `generate_dynamic_personas`
returns (configured fields plus `id`). -/
structure Persona where
  id : String
  name : String
  role : String
  icon : String
  style : String
  system_prompt : String
  model : String
deriving DecidableEq, Repr

/-- The `PERSONAS` dict of config.py, as an association list in the dict's
insertion order. -/
def PERSONAS : List (String × PersonaConfig) :=
  [("skeptic",
    ⟨"The Skeptic", "Critical Analyst", "🧐", "critical, questioning, looking for flaws",
     "anthropic/claude-sonnet-4.5",
     "You are The Skeptic. Your role is to critically analyze every claim. Look for logical fallacies, missing evidence, and potential downsides. Do not just agree; challenge the premise and ask tough questions."⟩),
   ("visionary",
    ⟨"The Visionary", "Future Thinker", "🚀", "optimistic, forward-looking, creative",
     "openai/gpt-5.1",
     "You are The Visionary. Your role is to look at the big picture and future possibilities. Focus on innovation, potential impact, and creative solutions. Be optimistic and inspiring."⟩),
   ("pragmatist",
    ⟨"The Pragmatist", "Practical Implementer", "🛠️", "practical, realistic, actionable",
     "google/gemini-3-pro-preview",
     "You are The Pragmatist. Your role is to focus on what is actually doable. Prioritize practical steps, feasibility, and real-world constraints. Avoid pie-in-the-sky ideas if they aren\x27t actionable."⟩),
   ("historian",
    ⟨"The Historian", "Context Provider", "📚", "contextual, analytical, drawing from history",
     "anthropic/claude-sonnet-4.5",
     "You are The Historian. Your role is to provide context and historical precedents. Analyze the current situation by comparing it to past events and trends. What can we learn from history?"⟩),
   ("devil_advocate",
    ⟨"Devil\x27s Advocate", "Contrarian", "😈", "contrarian, challenging, alternative",
     "x-ai/grok-4",
     "You are the Devil\x27s Advocate. Your role is to argue the opposite of the common consensus. Even if you agree, find a way to represent the opposing view to ensure a robust debate."⟩)]

/-- `DEFAULT_PERSONAS` of config.py. -/
def DEFAULT_PERSONAS : List String := ["skeptic", "visionary", "pragmatist"]

/-- `CHAIRMAN_MODEL` of config.py. -/
def CHAIRMAN_MODEL : String := "google/gemini-3-pro-preview"

/-- First-match association-list lookup (Python dict access; dict keys are
unique, so first match is the only match). -/
def mapLookup (m : List (String × String)) (k : String) : Option String :=
  match m with
  | [] => none
  | (k1, v) :: rest => if k1 = k then some v else mapLookup rest k

/-- Lookup in the `PERSONAS` configuration. -/
def personaLookup (k : String) : Option PersonaConfig :=
  match PERSONAS.find? (fun e => e.1 = k) with
  | some e => some e.2
  | none => none

/-- The result dict of the `query_model` collaborator: `{'content': text}`,
whose `content` key may be missing. -/
structure QueryResponse where
  content : Option String
deriving DecidableEq, Repr

/-- What the code observes of `json.loads(...)` followed by
`data.get("personas", [])`: the call raises (JSON-decode error, or `.get`
on a non-dict value), or the decoded object has no `personas` key, or it
has one holding a persona list. -/
inductive DecodeOutcome where
  | raise : DecodeOutcome
  | dictWithout : DecodeOutcome
  | dictWith : List Persona → DecodeOutcome

/-- Python `str.strip()` (whitespace at both ends, ASCII model). -/
def pyStrip (l : List Char) : List Char :=
  ((l.dropWhile isPySpace).reverse.dropWhile isPySpace).reverse

/-- The literal ` ```json ` fence opener. -/
def fenceJsonLit : List Char := "```json".data

/-- The literal ` ``` ` fence. -/
def fenceLit : List Char := "```".data

/-- The markdown-fence cleanup of `generate_dynamic_personas` (council.py
lines 55-58): `content.split("```json")[1].split("```")[0]`, or the same
with ` ``` `.  The `[1]` index exists because the branch is guarded by the
containment check; `getD` supplies the same element. -/
def cleanContent (content : List Char) : List Char :=
  if containsSub fenceJsonLit content then
    (pySplit fenceLit ((pySplit fenceJsonLit content).getD 1 [])).getD 0 []
  else if containsSub fenceLit content then
    (pySplit fenceLit ((pySplit fenceLit content).getD 1 [])).getD 0 []
  else content

/-- The fallback persona list of `generate_dynamic_personas` (council.py
lines 48-50 and 65-67): `[{**PERSONAS[pid], "id": pid} for pid in
DEFAULT_PERSONAS if pid in PERSONAS]`. -/
def plannerFallback : List Persona :=
  DEFAULT_PERSONAS.filterMap (fun pid =>
    (personaLookup pid).map (fun c =>
      ⟨pid, c.name, c.role, c.icon, c.style, c.system_prompt, c.model⟩))

/-- Embeds `generate_dynamic_personas` (council.py lines 10-67).  `response`
is the planning call's outcome; `jsonLoads` the `json.loads` +
`data.get("personas", [])` oracle applied to the fence-cleaned, stripped
content.  Falsy content (`not response.get('content')`) is a missing key
or the empty string. -/
def generate_dynamic_personas (response : Option QueryResponse)
    (jsonLoads : String → DecodeOutcome) : List Persona :=
  match response with
  | none => plannerFallback
  | some r =>
    match r.content with
    | none => plannerFallback
    | some content =>
      if content = "" then plannerFallback
      else
        match jsonLoads (String.mk (pyStrip (cleanContent content.data))) with
        | .raise => plannerFallback
        | .dictWithout => []
        | .dictWith ps => ps

/-- One entry of Stage 1's result list (council.py lines 99-106). -/
structure Stage1Result where
  persona_id : String
  persona_name : String
  persona_role : String
  persona_icon : String
  model : String
  response : String
deriving DecidableEq, Repr

/-- The Stage1Result built for a persona whose call succeeded. -/
def stage1Entry (p : Persona) (q : QueryResponse) : Stage1Result :=
  ⟨p.id, p.name, p.role, p.icon, p.model, q.content.getD ""⟩

/-- Embeds `stage1_collect_responses` (council.py lines 70-108).
`responses` holds the outcome of each persona's call, in dispatch order
(`asyncio.gather` preserves order); failed calls (`None`) are skipped by
the `if response is not None` filter. -/
def stage1_collect_responses (personas : List Persona)
    (responses : List (Option QueryResponse)) : List Stage1Result :=
  (personas.zip responses).filterMap (fun pr => pr.2.map (stage1Entry pr.1))

/-- One entry of Stage 2's result list (council.py lines 192-196): the
ranker's persona name (stored under the key `model`), the raw ranking
text, and its parse. -/
structure Stage2Result where
  model : String
  ranking : String
  parsed_ranking : List String
deriving DecidableEq, Repr

/-- Embeds `stage2_collect_rankings` (council.py lines 111-198): labels are
`chr(65 + i)` in Stage1 order, the label map sends `Response X` to the
persona name, and each surviving ranker contributes one Stage2Result whose
`parsed_ranking` is the parse of its full reply text. -/
def stage2_collect_rankings (stage1_results : List Stage1Result)
    (responses : List (Option QueryResponse)) :
    List Stage2Result × List (String × String) :=
  let labels := (List.range stage1_results.length).map (fun i => Char.ofNat (65 + i))
  let label_to_persona := (labels.zip stage1_results).map
    (fun lr => (respStr lr.1, lr.2.persona_name))
  let stage2_results := (stage1_results.zip responses).filterMap (fun rr =>
    rr.2.map (fun q =>
      let full_text := q.content.getD ""
      ⟨rr.1.persona_name, full_text, parse_ranking_from_text full_text⟩))
  (stage2_results, label_to_persona)

/-- The final answer dict (council.py lines 250-260). -/
structure SynthesisResult where
  model : String
  response : String
deriving DecidableEq, Repr

/-- Embeds `stage3_synthesize_final` (council.py lines 201-260): only the
chairman call's outcome reaches the returned value (the stage texts feed
the outgoing prompt only); `None` yields the fixed fallback. -/
def stage3_synthesize_final (response : Option QueryResponse) : SynthesisResult :=
  match response with
  | none => ⟨"Chairman", "Error: Unable to generate final synthesis."⟩
  | some q => ⟨"Chairman", q.content.getD ""⟩

/-- One aggregate entry (council.py lines 332-336). -/
structure AggregateEntry where
  model : String
  average_rank : ℚ
  rankings_count : Nat
deriving DecidableEq, Repr

/-- Nearest integer with ties to even (Python `round`'s rule; reals are
modelled by exact rationals). -/
def halfEvenInt (q : ℚ) : ℤ :=
  let n : ℤ := q.num.fdiv (q.den : ℤ)
  let frac : ℚ := q - (n : ℚ)
  if frac < 1 / 2 then n
  else if 1 / 2 < frac then n + 1
  else if n % 2 = 0 then n else n + 1

/-- Python `round(x, 2)` on the exact rational value. -/
def round2 (q : ℚ) : ℚ := (halfEvenInt (q * 100) : ℚ) / 100

/-- Python `enumerate(xs, start)`. -/
def pyEnumerate (start : Nat) : List String → List (Nat × String)
  | [] => []
  | a :: as => (start, a) :: pyEnumerate (start + 1) as

/-- Append a position to a persona's list in the accumulator, mirroring
`defaultdict(list)`: a new key is appended at the end (dict insertion
order), an existing key's list grows at its entry. -/
def addPos (m : List (String × List Nat)) (k : String) (v : Nat) :
    List (String × List Nat) :=
  match m with
  | [] => [(k, [v])]
  | (k1, vs) :: rest =>
    if k1 = k then (k1, vs ++ [v]) :: rest else (k1, vs) :: addPos rest k v

/-- The inner loop of `calculate_aggregate_rankings` (council.py lines
322-325): record a 1-based position under the resolved persona name,
skipping labels outside the mapping. -/
def stepLabel (label_to_persona : List (String × String))
    (m : List (String × List Nat)) (pl : Nat × String) :
    List (String × List Nat) :=
  match mapLookup label_to_persona pl.2 with
  | some persona_name => addPos m persona_name pl.1
  | none => m

/-- The outer loop of `calculate_aggregate_rankings` (council.py lines
316-325): re-parse the ranker's raw text and fold its enumerated labels. -/
def stepRanker (label_to_persona : List (String × String))
    (m : List (String × List Nat)) (r : Stage2Result) :
    List (String × List Nat) :=
  List.foldl (stepLabel label_to_persona) m
    (pyEnumerate 1 (parse_ranking_from_text r.ranking))

/-- The `model_positions` accumulator after both loops. -/
def collectPositions (stage2_results : List Stage2Result)
    (label_to_persona : List (String × String)) : List (String × List Nat) :=
  List.foldl (stepRanker label_to_persona) [] stage2_results

/-- Embeds `calculate_aggregate_rankings` (council.py lines 297-341): one
entry per persona with recorded positions, `average_rank = round(sum/len,
2)`, sorted ascending by `average_rank`.  Python `list.sort` is a stable
ascending sort, which insertion sort computes. -/
def calculate_aggregate_rankings (stage2_results : List Stage2Result)
    (label_to_persona : List (String × String)) : List AggregateEntry :=
  let mp := collectPositions stage2_results label_to_persona
  let aggregate := mp.filterMap (fun e =>
    if e.2 = [] then none
    else some (⟨e.1, round2 ((e.2.sum : ℚ) / (e.2.length : ℚ)), e.2.length⟩ :
      AggregateEntry))
  List.insertionSort (fun a b => a.average_rank ≤ b.average_rank) aggregate

/-- The metadata dict of `run_full_council`: `{}` on abort (both fields
absent), both fields present otherwise. -/
structure Metadata where
  label_to_model : Option (List (String × String))
  aggregate_rankings : Option (List AggregateEntry)

/-- The outcomes of every external model call of one turn: the planner
call, one call per dispatched persona in Stage 1 (in dispatch order), one
per surviving ranker in Stage 2, and the chairman call. -/
structure Env where
  plannerResponse : Option QueryResponse
  jsonLoads : String → DecodeOutcome
  stage1Responses : List (Option QueryResponse)
  stage2Responses : List (Option QueryResponse)
  stage3Response : Option QueryResponse

/-- Embeds `run_full_council` (council.py lines 426-468): plan, Stage 1,
abort with an error-shaped result and empty metadata when Stage 1 is
empty, otherwise Stage 2, aggregation, Stage 3 and populated metadata. -/
def run_full_council (env : Env) :
    List Persona × List Stage1Result × List Stage2Result × SynthesisResult × Metadata :=
  let personas := generate_dynamic_personas env.plannerResponse env.jsonLoads
  let stage1_results := stage1_collect_responses personas env.stage1Responses
  if stage1_results = [] then
    (personas, [], [],
     ⟨"error", "All models failed to respond. Please try again."⟩,
     ⟨none, none⟩)
  else
    let s2 := stage2_collect_rankings stage1_results env.stage2Responses
    let aggregate_rankings := calculate_aggregate_rankings s2.1 s2.2
    let stage3_result := stage3_synthesize_final env.stage3Response
    (personas, stage1_results, s2.1, stage3_result,
     ⟨some s2.2, some aggregate_rankings⟩)

/-!
Specification-side definitions, used to state the claims against the
embedded code.
-/

/-- The text contains an occurrence of the pattern `Response [A-Z]`. -/
def HasResp (l : List Char) : Prop :=
  ∃ pre c post, c.isUpper = true ∧ l = pre ++ (respLit ++ c :: post)

/-- Positions (1-based) at which one ranker's parsed order mentions a label
that the mapping resolves to `name`. -/
def rankerPositions (label_to_persona : List (String × String)) (name : String)
    (parsed : List String) : List Nat :=
  (pyEnumerate 1 parsed).filterMap (fun pl =>
    if mapLookup label_to_persona pl.2 = some name then some pl.1 else none)

/-- All positions recorded for `name` across all rankers, in ranker order. -/
def allPositionsFor (label_to_persona : List (String × String)) (name : String)
    (stage2_results : List Stage2Result) : List Nat :=
  (stage2_results.map (fun r =>
    rankerPositions label_to_persona name (parse_ranking_from_text r.ranking))).flatten

/-- Modelled from the spec: aggregation that reads the stored
`parsed_ranking` field instead of re-parsing the raw text — the comparison
point of the refinement claim.  Identical to
`calculate_aggregate_rankings` except for the parsed order's origin. -/
def aggregateFromParsed (stage2_results : List Stage2Result)
    (label_to_persona : List (String × String)) : List AggregateEntry :=
  let mp := List.foldl (fun m (r : Stage2Result) =>
    List.foldl (stepLabel label_to_persona) m (pyEnumerate 1 r.parsed_ranking))
    [] stage2_results
  let aggregate := mp.filterMap (fun e =>
    if e.2 = [] then none
    else some (⟨e.1, round2 ((e.2.sum : ℚ) / (e.2.length : ℚ)), e.2.length⟩ :
      AggregateEntry))
  List.insertionSort (fun a b => a.average_rank ≤ b.average_rank) aggregate

/-- First-match lookup in the positions accumulator (Python dict access;
`addPos` keeps keys unique, so first match is the only match). -/
def alistGet (m : List (String × List Nat)) (k : String) : List Nat :=
  match m with
  | [] => []
  | (k1, v) :: rest => if k1 = k then v else alistGet rest k

/-- Three concrete Stage 1 survivors, for the partial-Stage2-failure
scenario. -/
def exStage1 : List Stage1Result :=
  [⟨"p1", "Persona One", "role1", "i1", "m1", "first answer"⟩,
   ⟨"p2", "Persona Two", "role2", "i2", "m2", "second answer"⟩,
   ⟨"p3", "Persona Three", "role3", "i3", "m3", "third answer"⟩]

/-- Stage 2 call outcomes in which the second of three rankers fails. -/
def exStage2Responses : List (Option QueryResponse) :=
  [some ⟨some "FINAL RANKING:\n1. Response A\n2. Response B\n3. Response C"⟩,
   none,
   some ⟨some "FINAL RANKING:\n1. Response C\n2. Response B\n3. Response A"⟩]

/-- The label mapping of the aggregation example. -/
def exMapping : List (String × String) :=
  [("Response A", "Historian"), ("Response B", "Visionary")]

/-- Two rankers whose raw texts parse to the orders `[A, B]` and `[B, A]`. -/
def exRankers : List Stage2Result :=
  [⟨"Ranker1", "FINAL RANKING:\n1. Response A\n2. Response B",
    ["Response A", "Response B"]⟩,
   ⟨"Ranker2", "FINAL RANKING:\n1. Response B\n2. Response A",
    ["Response B", "Response A"]⟩]

/-- A turn in which the planner call fails (falling back to the three
default personas) and all three Stage 1 calls fail. -/
def envAllFail : Env :=
  ⟨none, fun _ => DecodeOutcome.raise, [none, none, none], [], none⟩

/-!
Scanner infrastructure lemmas: the fuel-indexed scanners are fuel-
irrelevant above the input length, giving the natural one-step unfolding
equations, and successful matches decompose the input.

Batteries seals rational arithmetic behind `@[irreducible]`; restoring the
default transparency lets `decide`/`rfl` evaluate the aggregate
computations on concrete inputs (the kernel itself always unfolds them).
-/

attribute [local semireducible] Rat.add Rat.mul Rat.inv Rat.sub

theorem dropLit_some_iff {pat l rest : List Char} :
    dropLit pat l = some rest ↔ l = pat ++ rest := by
  induction pat generalizing l with
  | nil => simp [dropLit]
  | cons p ps ih =>
    cases l with
    | nil => simp [dropLit]
    | cons c cs =>
      by_cases h : c = p
      · subst h
        simp [dropLit, ih]
      · simp only [dropLit, if_neg h, List.cons_append]
        constructor
        · intro hcon; cases hcon
        · intro heq
          injection heq with h1 _
          exact absurd h1 h

theorem matchResp_some {l : List Char} {c : Char} {rest : List Char}
    (h : matchResp l = some (c, rest)) :
    c.isUpper = true ∧ l = respLit ++ c :: rest := by
  unfold matchResp at h
  split at h
  next d ds heq =>
    split at h
    next hu =>
      injection h with h2
      injection h2 with h3 h4
      subst h3; subst h4
      exact ⟨hu, dropLit_some_iff.mp heq⟩
    next hu => cases h
  next => cases h

theorem matchResp_of {c : Char} (rest : List Char) (hu : c.isUpper = true) :
    matchResp (respLit ++ c :: rest) = some (c, rest) := by
  unfold matchResp
  rw [dropLit_some_iff.mpr rfl]
  simp [hu]


theorem matchNumbered_some {l mt rest : List Char}
    (h : matchNumbered l = some (mt, rest)) :
    ∃ ds sp c, ds ≠ [] ∧ (∀ d ∈ ds, d.isDigit = true) ∧
      (∀ s ∈ sp, isPySpace s = true) ∧ c.isUpper = true ∧
      mt = ds ++ '.' :: (sp ++ respLit ++ [c]) ∧ l = mt ++ rest := by
  unfold matchNumbered at h
  dsimp only at h
  split at h
  next => cases h
  next d ds heqds =>
    split at h
    next r2 heqr1 =>
      split at h
      next c rest2 heqresp =>
        obtain ⟨hu, hr3⟩ := matchResp_some heqresp
        injection h with h2
        injection h2 with h3 h4
        have hr2 : r2 = r2.takeWhile isPySpace ++ (respLit ++ c :: rest2) := by
          conv_lhs => rw [← List.takeWhile_append_dropWhile (p := isPySpace) (l := r2)]
          rw [hr3]
        refine ⟨l.takeWhile Char.isDigit, r2.takeWhile isPySpace, c,
          ?_, ?_, ?_, hu, h3.symm, ?_⟩
        · rw [heqds]; simp
        · intro x hx
          exact List.mem_takeWhile_imp hx
        · intro x hx
          exact List.mem_takeWhile_imp hx
        · rw [← h3, ← h4]
          conv_lhs => rw [← List.takeWhile_append_dropWhile (p := Char.isDigit) (l := l)]
          rw [heqr1]
          conv_lhs => rw [hr2]
          simp
      next => cases h
    next => cases h

theorem matchNumbered_length {l mt rest : List Char}
    (h : matchNumbered l = some (mt, rest)) : rest.length < l.length := by
  obtain ⟨ds, sp, c, hne, _, _, _, hmt, hl⟩ := matchNumbered_some h
  subst hmt
  rw [hl]
  cases ds with
  | nil => exact absurd rfl hne
  | cons d ds' =>
    simp [respLit]
    omega

theorem matchResp_length {l : List Char} {c : Char} {rest : List Char}
    (h : matchResp l = some (c, rest)) : rest.length < l.length := by
  obtain ⟨_, hl⟩ := matchResp_some h
  rw [hl]
  simp [respLit]
  omega

theorem scanRespGo_irrel :
    ∀ (n m : Nat) (l : List Char), l.length ≤ n → l.length ≤ m →
      scanRespGo n l = scanRespGo m l := by
  intro n
  induction n with
  | zero =>
    intro m l hn _
    have : l = [] := List.length_eq_zero.mp (Nat.le_zero.mp hn)
    subst this
    cases m <;> rfl
  | succ n ih =>
    intro m l hn hm
    cases l with
    | nil => cases m <;> rfl
    | cons c cs =>
      cases m with
      | zero => simp at hm
      | succ m =>
        cases h : matchResp (c :: cs) with
        | some v =>
          obtain ⟨d, rest⟩ := v
          have hlen := matchResp_length h
          simp only [List.length_cons] at hn hm hlen
          simp only [scanRespGo, h]
          rw [ih m rest (by omega) (by omega)]
        | none =>
          simp only [List.length_cons] at hn hm
          simp only [scanRespGo, h]
          exact ih m cs (by omega) (by omega)

theorem scanResp_eq (l : List Char) :
    scanResp l =
      match matchResp l with
      | some (d, rest) => respStr d :: scanResp rest
      | none =>
        match l with
        | [] => []
        | _ :: cs => scanResp cs := by
  cases l with
  | nil =>
    cases h : matchResp ([] : List Char) with
    | some v =>
      obtain ⟨d, rest⟩ := v
      obtain ⟨_, habs⟩ := matchResp_some h
      simp [respLit] at habs
    | none => simp only [h]; rfl
  | cons c cs =>
    cases h : matchResp (c :: cs) with
    | some v =>
      obtain ⟨d, rest⟩ := v
      have hlen := matchResp_length h
      simp only [List.length_cons] at hlen
      show scanRespGo (c :: cs).length (c :: cs) = _
      simp only [List.length_cons, scanRespGo, h, scanResp]
      rw [scanRespGo_irrel cs.length rest.length rest (by omega) le_rfl]
    | none =>
      show scanRespGo (c :: cs).length (c :: cs) = _
      simp only [List.length_cons, scanRespGo, h, scanResp]

theorem scanNumberedGo_irrel :
    ∀ (n m : Nat) (l : List Char), l.length ≤ n → l.length ≤ m →
      scanNumberedGo n l = scanNumberedGo m l := by
  intro n
  induction n with
  | zero =>
    intro m l hn _
    have : l = [] := List.length_eq_zero.mp (Nat.le_zero.mp hn)
    subst this
    cases m <;> rfl
  | succ n ih =>
    intro m l hn hm
    cases l with
    | nil => cases m <;> rfl
    | cons c cs =>
      cases m with
      | zero => simp at hm
      | succ m =>
        cases h : matchNumbered (c :: cs) with
        | some v =>
          obtain ⟨mt, rest⟩ := v
          have hlen := matchNumbered_length h
          simp only [List.length_cons] at hn hm hlen
          simp only [scanNumberedGo, h]
          rw [ih m rest (by omega) (by omega)]
        | none =>
          simp only [List.length_cons] at hn hm
          simp only [scanNumberedGo, h]
          exact ih m cs (by omega) (by omega)

theorem scanNumbered_eq (l : List Char) :
    scanNumbered l =
      match matchNumbered l with
      | some (mt, rest) => mt :: scanNumbered rest
      | none =>
        match l with
        | [] => []
        | _ :: cs => scanNumbered cs := by
  cases l with
  | nil =>
    cases h : matchNumbered ([] : List Char) with
    | some v =>
      obtain ⟨mt, rest⟩ := v
      have := matchNumbered_length h
      simp at this
    | none => simp only [h]; rfl
  | cons c cs =>
    cases h : matchNumbered (c :: cs) with
    | some v =>
      obtain ⟨mt, rest⟩ := v
      have hlen := matchNumbered_length h
      simp only [List.length_cons] at hlen
      show scanNumberedGo (c :: cs).length (c :: cs) = _
      simp only [List.length_cons, scanNumberedGo, h, scanNumbered]
      rw [scanNumberedGo_irrel cs.length rest.length rest (by omega) le_rfl]
    | none =>
      show scanNumberedGo (c :: cs).length (c :: cs) = _
      simp only [List.length_cons, scanNumberedGo, h, scanNumbered]

theorem splitFirstGo_some_decomp {sep l b a : List Char}
    (h : splitFirstGo sep l = some (b, a)) : l = b ++ sep ++ a := by
  induction l generalizing b a with
  | nil => cases h
  | cons c cs ih =>
    unfold splitFirstGo at h
    split at h
    next rest heq =>
      injection h with h2
      injection h2 with h3 h4
      subst h3; subst h4
      simpa using dropLit_some_iff.mp heq
    next =>
      split at h
      next b' a' heq2 =>
        injection h with h2
        injection h2 with h3 h4
        subst h3; subst h4
        have := ih heq2
        simp [this]
      next => cases h

theorem splitFirst_some_decomp {sep l b a : List Char}
    (h : splitFirst sep l = some (b, a)) : sep ≠ [] ∧ l = b ++ sep ++ a := by
  cases sep with
  | nil => simp [splitFirst] at h
  | cons s0 ss =>
    exact ⟨by simp, splitFirstGo_some_decomp (h := h)⟩

theorem splitFirst_some_length {sep l b a : List Char}
    (h : splitFirst sep l = some (b, a)) : a.length < l.length := by
  obtain ⟨hne, hl⟩ := splitFirst_some_decomp h
  rw [hl]
  cases sep with
  | nil => exact absurd rfl hne
  | cons s0 ss =>
    simp
    omega

theorem pySplitGo_irrel (sep : List Char) :
    ∀ (n m : Nat) (l : List Char), l.length ≤ n → l.length ≤ m →
      pySplitGo sep n l = pySplitGo sep m l := by
  intro n
  induction n with
  | zero =>
    intro m l hn _
    have hl : l = [] := List.length_eq_zero.mp (Nat.le_zero.mp hn)
    subst hl
    cases m with
    | zero => rfl
    | succ m =>
      cases h : splitFirst sep ([] : List Char) with
      | some v =>
        obtain ⟨b, a⟩ := v
        have := splitFirst_some_length h
        simp at this
      | none => simp only [pySplitGo, h]
  | succ n ih =>
    intro m l hn hm
    cases m with
    | zero =>
      have hl : l = [] := List.length_eq_zero.mp (Nat.le_zero.mp hm)
      subst hl
      cases h : splitFirst sep ([] : List Char) with
      | some v =>
        obtain ⟨b, a⟩ := v
        have := splitFirst_some_length h
        simp at this
      | none => simp only [pySplitGo, h]
    | succ m =>
      cases h : splitFirst sep l with
      | some v =>
        obtain ⟨b, a⟩ := v
        have hlen := splitFirst_some_length h
        simp only [pySplitGo, h]
        rw [ih m a (by omega) (by omega)]
      | none => simp only [pySplitGo, h]

theorem pySplit_eq (sep l : List Char) :
    pySplit sep l =
      match splitFirst sep l with
      | none => [l]
      | some (b, a) => b :: pySplit sep a := by
  cases h : splitFirst sep l with
  | some v =>
    obtain ⟨b, a⟩ := v
    have hlen := splitFirst_some_length h
    cases hn : l.length with
    | zero => omega
    | succ k =>
      show pySplitGo sep l.length l = _
      rw [hn]
      simp only [pySplitGo, h, pySplit]
      rw [pySplitGo_irrel sep k a.length a (by omega) le_rfl]
  | none =>
    cases hn : l.length with
    | zero =>
      show pySplitGo sep l.length l = _
      rw [hn]
      simp only [pySplitGo]
    | succ k =>
      show pySplitGo sep l.length l = _
      rw [hn]
      simp only [pySplitGo, h]

theorem scanResp_eq_some {l rest : List Char} {d : Char}
    (h : matchResp l = some (d, rest)) :
    scanResp l = respStr d :: scanResp rest := by
  rw [scanResp_eq, h]

theorem scanResp_eq_none_cons {c : Char} {cs : List Char}
    (h : matchResp (c :: cs) = none) : scanResp (c :: cs) = scanResp cs := by
  rw [scanResp_eq, h]

theorem scanNumbered_eq_some {l mt rest : List Char}
    (h : matchNumbered l = some (mt, rest)) :
    scanNumbered l = mt :: scanNumbered rest := by
  rw [scanNumbered_eq, h]

theorem scanNumbered_eq_none_cons {c : Char} {cs : List Char}
    (h : matchNumbered (c :: cs) = none) :
    scanNumbered (c :: cs) = scanNumbered cs := by
  rw [scanNumbered_eq, h]

theorem pySplit_eq_some {sep l b a : List Char}
    (h : splitFirst sep l = some (b, a)) : pySplit sep l = b :: pySplit sep a := by
  rw [pySplit_eq, h]

theorem pySplit_eq_none {sep l : List Char}
    (h : splitFirst sep l = none) : pySplit sep l = [l] := by
  rw [pySplit_eq, h]

theorem splitFirst_nil (sep : List Char) : splitFirst sep [] = none := by
  cases sep <;> rfl

theorem pySplit_ne_nil (sep l : List Char) : pySplit sep l ≠ [] := by
  rw [pySplit_eq]
  cases h : splitFirst sep l with
  | none => simp
  | some v => obtain ⟨b, a⟩ := v; simp

theorem hasResp_nil : ¬ HasResp [] := by
  rintro ⟨pre, c, post, _, h⟩
  simp [respLit] at h

theorem hasResp_cons_of {c : Char} {cs : List Char} (h : HasResp cs) :
    HasResp (c :: cs) := by
  obtain ⟨pre, d, post, hd, heq⟩ := h
  exact ⟨c :: pre, d, post, hd, by rw [heq]; rfl⟩

theorem hasResp_cons_iff {c : Char} {cs : List Char}
    (hm : matchResp (c :: cs) = none) : HasResp (c :: cs) ↔ HasResp cs := by
  constructor
  · rintro ⟨pre, d, post, hd, heq⟩
    cases pre with
    | nil =>
      simp only [List.nil_append] at heq
      have hof := matchResp_of (c := d) post hd
      rw [← heq] at hof
      rw [hm] at hof
      cases hof
    | cons p pre2 =>
      injection heq with _ h2
      exact ⟨pre2, d, post, hd, h2⟩
  · exact hasResp_cons_of

theorem hasResp_infix (u mid v : List Char) (h : HasResp mid) :
    HasResp (u ++ mid ++ v) := by
  obtain ⟨pre, c, post, hc, heq⟩ := h
  exact ⟨u ++ pre, c, post ++ v, hc, by rw [heq]; simp⟩

theorem scanResp_nil_iff (l : List Char) : scanResp l = [] ↔ ¬ HasResp l := by
  induction l with
  | nil =>
    constructor
    · intro _; exact hasResp_nil
    · intro _; rfl
  | cons c cs ih =>
    cases h : matchResp (c :: cs) with
    | some v =>
      obtain ⟨d, rest⟩ := v
      rw [scanResp_eq_some h]
      obtain ⟨hu, heq⟩ := matchResp_some h
      constructor
      · intro habs; cases habs
      · intro hn
        exact absurd ⟨[], d, rest, hu, by simpa using heq⟩ hn
    | none =>
      rw [scanResp_eq_none_cons h, ih]
      exact (not_congr (hasResp_cons_iff h)).symm

theorem scanNumbered_hasResp {l : List Char} (h : scanNumbered l ≠ []) :
    HasResp l := by
  induction l with
  | nil => exact absurd rfl h
  | cons c cs ih =>
    cases hm : matchNumbered (c :: cs) with
    | some v =>
      obtain ⟨mt, rest⟩ := v
      obtain ⟨ds, sp, d, _, _, _, hu, hmt, hl⟩ := matchNumbered_some hm
      refine ⟨ds ++ '.' :: sp, d, rest, hu, ?_⟩
      rw [hl, hmt]
      simp
    | none =>
      rw [scanNumbered_eq_none_cons hm] at h
      exact hasResp_cons_of (ih h)

theorem scanNumbered_shapeAux :
    ∀ (n : Nat) (l : List Char), l.length ≤ n → ∀ m ∈ scanNumbered l,
      ∃ ds sp c, ds ≠ [] ∧ (∀ d ∈ ds, d.isDigit = true) ∧
        (∀ s ∈ sp, isPySpace s = true) ∧ c.isUpper = true ∧
        m = ds ++ '.' :: (sp ++ respLit ++ [c]) := by
  intro n
  induction n with
  | zero =>
    intro l hl m hm
    have : l = [] := List.length_eq_zero.mp (Nat.le_zero.mp hl)
    subst this
    cases hm
  | succ n ih =>
    intro l hl m hm
    cases hmn : matchNumbered l with
    | some v =>
      obtain ⟨mt, rest⟩ := v
      rw [scanNumbered_eq_some hmn] at hm
      rcases List.mem_cons.mp hm with rfl | hm
      · obtain ⟨ds, sp, c, hne, hds, hsp, hu, hmt, _⟩ := matchNumbered_some hmn
        exact ⟨ds, sp, c, hne, hds, hsp, hu, hmt⟩
      · have hlen := matchNumbered_length hmn
        exact ih rest (by omega) m hm
    | none =>
      cases l with
      | nil => cases hm
      | cons c cs =>
        rw [scanNumbered_eq_none_cons hmn] at hm
        simp only [List.length_cons] at hl
        exact ih cs (by omega) m hm

theorem scanNumbered_mem_shape {l m : List Char} (hm : m ∈ scanNumbered l) :
    ∃ ds sp c, ds ≠ [] ∧ (∀ d ∈ ds, d.isDigit = true) ∧
      (∀ s ∈ sp, isPySpace s = true) ∧ c.isUpper = true ∧
      m = ds ++ '.' :: (sp ++ respLit ++ [c]) :=
  scanNumbered_shapeAux l.length l le_rfl m hm

theorem pySplit_infixAux :
    ∀ (n : Nat) (sep l : List Char), l.length ≤ n → ∀ p ∈ pySplit sep l,
      ∃ u v, l = u ++ p ++ v := by
  intro n
  induction n with
  | zero =>
    intro sep l hl p hp
    have : l = [] := List.length_eq_zero.mp (Nat.le_zero.mp hl)
    subst this
    rw [pySplit_eq_none (splitFirst_nil sep)] at hp
    simp at hp
    subst hp
    exact ⟨[], [], rfl⟩
  | succ n ih =>
    intro sep l hl p hp
    cases h : splitFirst sep l with
    | none =>
      rw [pySplit_eq_none h] at hp
      simp at hp
      subst hp
      exact ⟨[], [], by simp⟩
    | some v =>
      obtain ⟨b, a⟩ := v
      rw [pySplit_eq_some h] at hp
      obtain ⟨_, hl2⟩ := splitFirst_some_decomp h
      rcases List.mem_cons.mp hp with rfl | hp
      · exact ⟨[], sep ++ a, by simp [hl2]⟩
      · have hlen := splitFirst_some_length h
        obtain ⟨u, w, ha⟩ := ih sep a (by omega) p hp
        refine ⟨b ++ sep ++ u, w, ?_⟩
        rw [hl2, ha]
        simp

theorem scanResp_skipR {pre l : List Char} (h : ∀ x ∈ pre, x ≠ 'R') :
    scanResp (pre ++ l) = scanResp l := by
  induction pre with
  | nil => rfl
  | cons c cs ih =>
    have hc : c ≠ 'R' := h c (by simp)
    have hm : matchResp (c :: (cs ++ l)) = none := by
      cases hmr : matchResp (c :: (cs ++ l)) with
      | none => rfl
      | some v =>
        obtain ⟨d, rest⟩ := v
        obtain ⟨_, heq⟩ := matchResp_some hmr
        simp only [respLit, List.cons_append] at heq
        injection heq with h1 _
        exact absurd h1 hc
    rw [List.cons_append, scanResp_eq_none_cons hm,
      ih (fun x hx => h x (by simp [hx]))]

theorem scanResp_shaped {ds sp : List Char} {c : Char}
    (hds : ∀ d ∈ ds, d.isDigit = true) (hsp : ∀ s ∈ sp, isPySpace s = true)
    (hu : c.isUpper = true) :
    scanResp (ds ++ '.' :: (sp ++ respLit ++ [c])) = [respStr c] := by
  have hpre : ∀ x ∈ ds ++ '.' :: sp, x ≠ 'R' := by
    intro x hx
    rcases List.mem_append.mp hx with hx | hx
    · intro hxr
      subst hxr
      exact absurd (hds _ hx) (by decide)
    · rcases List.mem_cons.mp hx with rfl | hx
      · decide
      · intro hxr
        subst hxr
        exact absurd (hsp _ hx) (by decide)
  have hassoc : ds ++ '.' :: (sp ++ respLit ++ [c]) =
      (ds ++ '.' :: sp) ++ (respLit ++ [c]) := by simp
  rw [hassoc, scanResp_skipR hpre,
    scanResp_eq_some (matchResp_of ([] : List Char) hu)]
  rfl

theorem drop_shaped {ds sp : List Char} {c : Char} :
    (ds ++ '.' :: (sp ++ respLit ++ [c])).drop
      ((ds ++ '.' :: (sp ++ respLit ++ [c])).length - 10) = respLit ++ [c] := by
  have hassoc : ds ++ '.' :: (sp ++ respLit ++ [c]) =
      (ds ++ '.' :: sp) ++ (respLit ++ [c]) := by simp
  rw [hassoc]
  have hlen : ((ds ++ '.' :: sp) ++ (respLit ++ [c])).length - 10 =
      (ds ++ '.' :: sp).length := by
    simp [respLit]
    omega
  rw [hlen, List.drop_left]

theorem filterMap_eq_map_of_forall {α β : Type} {L : List α} {f : α → Option β}
    {g : α → β} (h : ∀ a ∈ L, f a = some (g a)) : L.filterMap f = L.map g := by
  induction L with
  | nil => rfl
  | cons a as ih =>
    rw [List.filterMap_cons, h a (by simp), List.map_cons,
      ih (fun x hx => h x (by simp [hx]))]

theorem parse_unfold_marker {text : String} {pre rest sect : List Char}
    {tl : List (List Char)}
    (h1 : splitFirst markerLit text.data = some (pre, rest))
    (h2 : pySplit markerLit rest = sect :: tl) :
    parse_ranking_from_text text =
      (if scanNumbered sect = [] then scanResp sect
       else (scanNumbered sect).filterMap (fun m => (scanResp m).head?)) := by
  have hc : containsSub markerLit text.data = true := by
    rw [containsSub, h1]
    rfl
  unfold parse_ranking_from_text
  dsimp only
  rw [if_pos hc, pySplit_eq_some h1, h2]

theorem parse_no_marker {text : String}
    (h : containsSub markerLit text.data = false) :
    parse_ranking_from_text text = scanResp text.data := by
  unfold parse_ranking_from_text
  dsimp only
  rw [h]
  simp

/-!
Accumulator lemmas for the aggregation: `addPos` and the two folds are
characterised through `alistGet`, and the accumulator's keys stay unique.
-/

theorem alistGet_addPos_self (m : List (String × List Nat)) (k : String) (v : Nat) :
    alistGet (addPos m k v) k = alistGet m k ++ [v] := by
  induction m with
  | nil => simp [addPos, alistGet]
  | cons e rest ih =>
    obtain ⟨k1, vs⟩ := e
    by_cases h : k1 = k
    · subst h
      simp [addPos, alistGet]
    · simp [addPos, alistGet, h, ih]

theorem alistGet_addPos_ne (m : List (String × List Nat)) (k k2 : String)
    (v : Nat) (h : k2 ≠ k) : alistGet (addPos m k v) k2 = alistGet m k2 := by
  induction m with
  | nil => simp [addPos, alistGet, Ne.symm h]
  | cons e rest ih =>
    obtain ⟨k1, vs⟩ := e
    by_cases h1 : k1 = k
    · subst h1
      simp [addPos, alistGet, Ne.symm h]
    · simp [addPos, alistGet, h1, ih]

theorem foldl_stepLabel_get (mapping : List (String × String)) :
    ∀ (pairs : List (Nat × String)) (m : List (String × List Nat)) (name : String),
      alistGet (List.foldl (stepLabel mapping) m pairs) name =
        alistGet m name ++ pairs.filterMap (fun pl =>
          if mapLookup mapping pl.2 = some name then some pl.1 else none) := by
  intro pairs
  induction pairs with
  | nil => intro m name; simp
  | cons pl rest ih =>
    intro m name
    rw [List.foldl_cons, ih, List.filterMap_cons]
    cases hl : mapLookup mapping pl.2 with
    | none => simp [stepLabel, hl]
    | some n2 =>
      by_cases hn : n2 = name
      · subst hn
        simp [stepLabel, hl, alistGet_addPos_self]
      · simp [stepLabel, hl, hn, alistGet_addPos_ne _ _ _ _ (Ne.symm hn)]

theorem collect_get (mapping : List (String × String))
    (stage2 : List Stage2Result) (name : String) :
    alistGet (collectPositions stage2 mapping) name =
      allPositionsFor mapping name stage2 := by
  suffices h : ∀ m, alistGet (List.foldl (stepRanker mapping) m stage2) name =
      alistGet m name ++ allPositionsFor mapping name stage2 by
    simpa [collectPositions, alistGet] using h []
  induction stage2 with
  | nil => intro m; simp [allPositionsFor]
  | cons r rest ih =>
    intro m
    rw [List.foldl_cons, ih, stepRanker, foldl_stepLabel_get]
    simp [allPositionsFor, rankerPositions, List.append_assoc]

theorem addPos_keys (m : List (String × List Nat)) (k : String) (v : Nat) :
    (addPos m k v).map Prod.fst =
      if k ∈ m.map Prod.fst then m.map Prod.fst else m.map Prod.fst ++ [k] := by
  induction m with
  | nil => simp [addPos]
  | cons e rest ih =>
    obtain ⟨k1, vs⟩ := e
    by_cases h : k1 = k
    · subst h
      simp [addPos]
    · simp [addPos, h, ih, Ne.symm h]
      by_cases hk : k ∈ rest.map Prod.fst <;> simp [hk, if_neg (Ne.symm h)]

theorem addPos_nodup {m : List (String × List Nat)} {k : String} {v : Nat}
    (h : (m.map Prod.fst).Nodup) : ((addPos m k v).map Prod.fst).Nodup := by
  rw [addPos_keys]
  by_cases hk : k ∈ m.map Prod.fst
  · simpa [hk] using h
  · simp only [hk, if_false]
    simp [List.nodup_append, h, hk]

theorem foldl_stepLabel_nodup (mapping : List (String × String)) :
    ∀ (pairs : List (Nat × String)) (m : List (String × List Nat)),
      (m.map Prod.fst).Nodup →
      ((List.foldl (stepLabel mapping) m pairs).map Prod.fst).Nodup := by
  intro pairs
  induction pairs with
  | nil => intro m h; simpa using h
  | cons pl rest ih =>
    intro m h
    rw [List.foldl_cons]
    apply ih
    unfold stepLabel
    cases hl : mapLookup mapping pl.2 with
    | none => simpa using h
    | some n2 => simpa using addPos_nodup h

theorem collect_nodup (mapping : List (String × String))
    (stage2 : List Stage2Result) :
    ((collectPositions stage2 mapping).map Prod.fst).Nodup := by
  suffices h : ∀ m, (List.map Prod.fst m).Nodup →
      ((List.foldl (stepRanker mapping) m stage2).map Prod.fst).Nodup by
    exact h [] (by simp)
  induction stage2 with
  | nil => intro m hm; simpa using hm
  | cons r rest ih =>
    intro m hm
    rw [List.foldl_cons]
    exact ih _ (foldl_stepLabel_nodup mapping _ m hm)

theorem alistGet_of_mem_nodup :
    ∀ {m : List (String × List Nat)} {k : String} {v : List Nat},
      (m.map Prod.fst).Nodup → (k, v) ∈ m → alistGet m k = v := by
  intro m
  induction m with
  | nil => intro k v _ h; cases h
  | cons e rest ih =>
    obtain ⟨k1, vs⟩ := e
    intro k v hnd hm
    rcases List.mem_cons.mp hm with heq | hm
    · injection heq with h1 h2
      subst h1; subst h2
      simp [alistGet]
    · have hk : k1 ≠ k := by
        intro hh
        subst hh
        simp only [List.map_cons, List.nodup_cons] at hnd
        exact hnd.1 (List.mem_map.mpr ⟨(k1, v), hm, rfl⟩)
      simp only [alistGet, if_neg hk]
      exact ih (by simp only [List.map_cons, List.nodup_cons] at hnd; exact hnd.2) hm

theorem mem_of_alistGet_ne_nil :
    ∀ {m : List (String × List Nat)} {k : String},
      alistGet m k ≠ [] → (k, alistGet m k) ∈ m := by
  intro m
  induction m with
  | nil => intro k h; exact absurd rfl h
  | cons e rest ih =>
    obtain ⟨k1, vs⟩ := e
    intro k h
    by_cases hk : k1 = k
    · subst hk
      simp only [alistGet, if_pos rfl] at h ⊢
      exact List.mem_cons_self _ _
    · simp only [alistGet, if_neg hk] at h ⊢
      exact List.mem_cons_of_mem _ (ih h)

/-!
Stage-level helper lemmas: the fan-in filters of Stage 1 and Stage 2 are
characterised on the zipped call outcomes, and indexed successes always
appear in the result.
-/

theorem stage1_filterMap_spec (l : List (Persona × Option QueryResponse)) :
    (l.filterMap (fun pr => pr.2.map (stage1Entry pr.1))).map
        (fun r => r.persona_id) =
      (l.filter (fun pr => pr.2.isSome)).map (fun pr => pr.1.id) := by
  induction l with
  | nil => rfl
  | cons pr rest ih =>
    obtain ⟨p, r⟩ := pr
    cases r with
    | none => simpa using ih
    | some q => simpa [stage1Entry] using ih

theorem zip_get_mem {α β : Type} :
    ∀ (l1 : List α) (l2 : List β) (i : Nat) (a : α) (b : β),
      l1.get? i = some a → l2.get? i = some b → (a, b) ∈ l1.zip l2 := by
  intro l1
  induction l1 with
  | nil => intro l2 i a b h; simp at h
  | cons x xs ih =>
    intro l2 i a b h1 h2
    cases l2 with
    | nil => simp at h2
    | cons y ys =>
      cases i with
      | zero =>
        simp only [List.get?] at h1 h2
        injection h1 with h1
        injection h2 with h2
        subst h1; subst h2
        simp [List.zip_cons_cons]
      | succ i =>
        simp only [List.get?] at h1 h2
        simp only [List.zip_cons_cons, List.mem_cons]
        exact Or.inr (ih ys i a b h1 h2)

theorem stage2_map_model (stage1_results : List Stage1Result)
    (responses : List (Option QueryResponse)) :
    ((stage2_collect_rankings stage1_results responses).1).map (fun r => r.model) =
      ((stage1_results.zip responses).filter (fun rr => rr.2.isSome)).map
        (fun rr => rr.1.persona_name) := by
  unfold stage2_collect_rankings
  dsimp only
  generalize stage1_results.zip responses = l
  induction l with
  | nil => rfl
  | cons rr rest ih =>
    obtain ⟨s, r⟩ := rr
    cases r with
    | none => simpa using ih
    | some q => simpa using ih

theorem stage2_parsed_inv (stage1_results : List Stage1Result)
    (responses : List (Option QueryResponse)) :
    ∀ r ∈ (stage2_collect_rankings stage1_results responses).1,
      r.parsed_ranking = parse_ranking_from_text r.ranking := by
  intro r hr
  unfold stage2_collect_rankings at hr
  dsimp only at hr
  obtain ⟨⟨s, oq⟩, _, hf⟩ := List.mem_filterMap.mp hr
  cases oq with
  | none => cases hf
  | some q =>
    simp only [Option.map_some'] at hf
    injection hf with hf
    subst hf
    rfl

theorem foldl_rankers_congr (mapping : List (String × String)) :
    ∀ (stage2 : List Stage2Result) (m : List (String × List Nat)),
      (∀ r ∈ stage2, r.parsed_ranking = parse_ranking_from_text r.ranking) →
      List.foldl (stepRanker mapping) m stage2 =
        List.foldl (fun m2 (r : Stage2Result) =>
          List.foldl (stepLabel mapping) m2 (pyEnumerate 1 r.parsed_ranking))
          m stage2 := by
  intro stage2
  induction stage2 with
  | nil => intro m _; rfl
  | cons r rest ih =>
    intro m h
    rw [List.foldl_cons, List.foldl_cons]
    have hr := h r (by simp)
    rw [stepRanker, ← hr]
    exact ih _ (fun x hx => h x (by simp [hx]))

theorem aggregate_eq_parsed (stage2 : List Stage2Result)
    (mapping : List (String × String))
    (h : ∀ r ∈ stage2, r.parsed_ranking = parse_ranking_from_text r.ranking) :
    calculate_aggregate_rankings stage2 mapping =
      aggregateFromParsed stage2 mapping := by
  unfold calculate_aggregate_rankings aggregateFromParsed collectPositions
  rw [foldl_rankers_congr mapping stage2 [] h]

theorem zip_get_eq {α β : Type} :
    ∀ (l1 : List α) (l2 : List β) (i : Nat) (a : α) (b : β),
      l1.get? i = some a → l2.get? i = some b →
      (l1.zip l2).get? i = some (a, b) := by
  intro l1
  induction l1 with
  | nil => intro l2 i a b h; simp at h
  | cons x xs ih =>
    intro l2 i a b h1 h2
    cases l2 with
    | nil => simp at h2
    | cons y ys =>
      cases i with
      | zero =>
        simp only [List.get?] at h1 h2
        injection h1 with h1
        injection h2 with h2
        subst h1; subst h2
        rfl
      | succ i =>
        simp only [List.get?] at h1 h2
        simpa [List.zip_cons_cons] using ih ys i a b h1 h2

/-!
The claims.
-/

/-- C1 (amended): when the planning call fails, the reply has no (or empty)
content, or the content fails to JSON-decode, `generate_dynamic_personas`
returns the configured default persona subset — non-empty and carrying the
configured ids under the normal configuration — and, being a total
function, never raises; but when the content decodes to a JSON object
lacking the `personas` key, `data.get("personas", [])` makes it return the
empty list, not the default subset. -/
theorem generate_dynamic_personas_fallback :
    (∀ j : String → DecodeOutcome,
      generate_dynamic_personas none j = plannerFallback)
    ∧ (∀ j : String → DecodeOutcome,
        generate_dynamic_personas (some ⟨none⟩) j = plannerFallback)
    ∧ (∀ j : String → DecodeOutcome,
        generate_dynamic_personas (some ⟨some ""⟩) j = plannerFallback)
    ∧ (∀ (j : String → DecodeOutcome) (content : String), content ≠ "" →
        j (String.mk (pyStrip (cleanContent content.data))) =
          DecodeOutcome.raise →
        generate_dynamic_personas (some ⟨some content⟩) j = plannerFallback)
    ∧ (∀ (j : String → DecodeOutcome) (content : String), content ≠ "" →
        j (String.mk (pyStrip (cleanContent content.data))) =
          DecodeOutcome.dictWithout →
        generate_dynamic_personas (some ⟨some content⟩) j = [])
    ∧ plannerFallback.map (fun p => p.id) = DEFAULT_PERSONAS
    ∧ plannerFallback ≠ [] := by
  refine ⟨fun j => rfl, fun j => rfl, fun j => rfl, ?_, ?_, by decide, by decide⟩
  · intro j content hne hdec
    unfold generate_dynamic_personas
    dsimp only
    rw [if_neg hne, hdec]
  · intro j content hne hdec
    unfold generate_dynamic_personas
    dsimp only
    rw [if_neg hne, hdec]

/-- C1 counterexample: a planning reply whose content is the valid JSON
object `{}` decodes without error but has no `personas` key; the code
returns `[]` — not the configured default subset, and empty. -/
theorem generate_dynamic_personas_missing_key_cex :
    generate_dynamic_personas (some ⟨some "{}"⟩)
        (fun _ => DecodeOutcome.dictWithout) = []
    ∧ plannerFallback ≠ [] :=
  ⟨rfl, by decide⟩

/-- C5: Stage 1 keeps at most one result per dispatched persona, exactly
the successes, in dispatch order: the result list is never longer than the
persona list, its persona ids are the ids of the successful prefix-order
pairs, and every indexed success contributes its entry. -/
theorem stage1_collect_responses_spec :
    (∀ (personas : List Persona) (responses : List (Option QueryResponse)),
      (stage1_collect_responses personas responses).length ≤ personas.length)
    ∧ (∀ (personas : List Persona) (responses : List (Option QueryResponse)),
        (stage1_collect_responses personas responses).map
            (fun r => r.persona_id) =
          ((personas.zip responses).filter (fun pr => pr.2.isSome)).map
            (fun pr => pr.1.id))
    ∧ (∀ (personas : List Persona) (responses : List (Option QueryResponse))
        (i : Nat) (p : Persona) (q : QueryResponse),
        personas.get? i = some p → responses.get? i = some (some q) →
        stage1Entry p q ∈ stage1_collect_responses personas responses) := by
  refine ⟨?_, ?_, ?_⟩
  · intro personas responses
    unfold stage1_collect_responses
    refine le_trans (List.length_filterMap_le _ _) ?_
    rw [List.length_zip]
    exact min_le_left _ _
  · intro personas responses
    exact stage1_filterMap_spec _
  · intro personas responses i p q h1 h2
    exact List.mem_filterMap.mpr ⟨(p, some q), zip_get_mem _ _ i _ _ h1 h2, rfl⟩

/-- C6: when Stage 1 comes back empty, `run_full_council` returns the
error-shaped synthesis result with empty Stage 2 results and empty
metadata; the returned value does not depend on the Stage 2 or Stage 3
call outcomes, so those stages are never invoked. -/
theorem run_full_council_abort (env : Env)
    (h : stage1_collect_responses
        (generate_dynamic_personas env.plannerResponse env.jsonLoads)
        env.stage1Responses = []) :
    run_full_council env =
      (generate_dynamic_personas env.plannerResponse env.jsonLoads, [], [],
       ⟨"error", "All models failed to respond. Please try again."⟩,
       ⟨none, none⟩)
    ∧ ∀ (s2 : List (Option QueryResponse)) (s3 : Option QueryResponse),
        run_full_council ⟨env.plannerResponse, env.jsonLoads,
          env.stage1Responses, s2, s3⟩ = run_full_council env := by
  constructor
  · unfold run_full_council
    dsimp only
    rw [if_pos h]
  · intro s2 s3
    unfold run_full_council
    dsimp only
    rw [if_pos h, if_pos h]

/-- C6 witness: with a failing planner call (three default personas) and
all three Stage 1 calls failing, the turn aborts with the error result. -/
theorem run_full_council_abort_witness :
    run_full_council envAllFail =
      (generate_dynamic_personas none (fun _ => DecodeOutcome.raise), [], [],
       ⟨"error", "All models failed to respond. Please try again."⟩,
       ⟨none, none⟩) :=
  (run_full_council_abort envAllFail (by decide)).1

/-- C7: a ranker whose Stage 2 call fails is omitted: the Stage 2 results
are exactly the successes in Stage 1 order (shown on their ranker names);
with 3 Stage 1 survivors and 1 Stage 2 failure exactly 2 results remain;
and on any non-aborted turn the metadata aggregates exactly the surviving
rankers' results. -/
theorem stage2_partial_failure_spec :
    (∀ (stage1_results : List Stage1Result)
        (responses : List (Option QueryResponse)),
      ((stage2_collect_rankings stage1_results responses).1).map
          (fun r => r.model) =
        ((stage1_results.zip responses).filter (fun rr => rr.2.isSome)).map
          (fun rr => rr.1.persona_name))
    ∧ (stage2_collect_rankings exStage1 exStage2Responses).1.length = 2
    ∧ ((stage2_collect_rankings exStage1 exStage2Responses).1.map
        (fun r => r.model) = ["Persona One", "Persona Three"])
    ∧ (∀ env : Env,
        stage1_collect_responses
            (generate_dynamic_personas env.plannerResponse env.jsonLoads)
            env.stage1Responses ≠ [] →
        (run_full_council env).2.2.2.2 =
          ⟨some (stage2_collect_rankings (stage1_collect_responses
              (generate_dynamic_personas env.plannerResponse env.jsonLoads)
              env.stage1Responses) env.stage2Responses).2,
           some (calculate_aggregate_rankings
             (stage2_collect_rankings (stage1_collect_responses
                (generate_dynamic_personas env.plannerResponse env.jsonLoads)
                env.stage1Responses) env.stage2Responses).1
             (stage2_collect_rankings (stage1_collect_responses
                (generate_dynamic_personas env.plannerResponse env.jsonLoads)
                env.stage1Responses) env.stage2Responses).2)⟩) := by
  refine ⟨stage2_map_model, by decide, by decide, ?_⟩
  intro env h
  unfold run_full_council
  dsimp only
  rw [if_neg h]

/-- C8: a failing chairman call yields the fixed fallback synthesis result
carrying an explicit error message, never an exception, and the turn still
completes (Stage 3 slot carries the fallback, metadata is populated). -/
theorem stage3_fallback_spec :
    stage3_synthesize_final none =
      ⟨"Chairman", "Error: Unable to generate final synthesis."⟩
    ∧ (∀ env : Env,
        stage1_collect_responses
            (generate_dynamic_personas env.plannerResponse env.jsonLoads)
            env.stage1Responses ≠ [] →
        env.stage3Response = none →
        (run_full_council env).2.2.2.1 =
          ⟨"Chairman", "Error: Unable to generate final synthesis."⟩
        ∧ (run_full_council env).2.2.2.2.label_to_model ≠ none) := by
  refine ⟨rfl, ?_⟩
  intro env h h3
  unfold run_full_council
  dsimp only
  rw [if_neg h, h3]
  exact ⟨rfl, by simp⟩

/-- C9: the label mapping is a pure function of the Stage 1 result list
(identical for any call outcomes), and for lists of length at most 26 the
i-th entry maps `Response <i-th uppercase letter>` to the i-th result's
persona name. -/
theorem label_mapping_spec :
    (∀ (stage1_results : List Stage1Result)
        (r1 r2 : List (Option QueryResponse)),
      (stage2_collect_rankings stage1_results r1).2 =
        (stage2_collect_rankings stage1_results r2).2)
    ∧ (∀ (stage1_results : List Stage1Result)
        (responses : List (Option QueryResponse)) (i : Nat),
        i < stage1_results.length → stage1_results.length ≤ 26 →
        ∃ c p, "ABCDEFGHIJKLMNOPQRSTUVWXYZ".data.get? i = some c ∧
          stage1_results.get? i = some p ∧
          (stage2_collect_rankings stage1_results responses).2.get? i =
            some (respStr c, p.persona_name)) := by
  constructor
  · intro s r1 r2
    rfl
  · intro s responses i hi h26
    have hlabels : ((List.range s.length).map
        (fun j => Char.ofNat (65 + j))).get? i = some (Char.ofNat (65 + i)) := by
      rw [List.get?_map, List.get?_range hi]
      rfl
    obtain ⟨p, hp⟩ : ∃ p, s.get? i = some p :=
      ⟨s.get ⟨i, hi⟩, List.get?_eq_get hi⟩
    refine ⟨Char.ofNat (65 + i), p, ?_, hp, ?_⟩
    · have hall : ∀ j : Fin 26,
          "ABCDEFGHIJKLMNOPQRSTUVWXYZ".data.get? j.1 =
            some (Char.ofNat (65 + j.1)) := by decide
      exact hall ⟨i, by omega⟩
    · unfold stage2_collect_rankings
      dsimp only
      rw [List.get?_map, zip_get_eq _ _ i _ _ hlabels hp]
      rfl

/-- C10: every Stage 2 result stores as `parsed_ranking` exactly the parse
of its stored raw text, and therefore the aggregation — which re-parses
the raw text — computes the same value as aggregating the stored
`parsed_ranking` fields directly. -/
theorem stage2_aggregate_refinement :
    (∀ (stage1_results : List Stage1Result)
        (responses : List (Option QueryResponse)),
      ∀ r ∈ (stage2_collect_rankings stage1_results responses).1,
        r.parsed_ranking = parse_ranking_from_text r.ranking)
    ∧ (∀ (stage2 : List Stage2Result) (mapping : List (String × String)),
        (∀ r ∈ stage2, r.parsed_ranking = parse_ranking_from_text r.ranking) →
        calculate_aggregate_rankings stage2 mapping =
          aggregateFromParsed stage2 mapping)
    ∧ (∀ (stage1_results : List Stage1Result)
        (responses : List (Option QueryResponse))
        (mapping : List (String × String)),
        calculate_aggregate_rankings
            (stage2_collect_rankings stage1_results responses).1 mapping =
          aggregateFromParsed
            (stage2_collect_rankings stage1_results responses).1 mapping) := by
  refine ⟨stage2_parsed_inv, ?_, ?_⟩
  · intro stage2 mapping h
    exact aggregate_eq_parsed stage2 mapping h
  · intro s r m
    exact aggregate_eq_parsed _ _ (stage2_parsed_inv s r)

/-- C2 (amended): when the marker is present, `parse_ranking_from_text`
operates on `parts[1]` of the split — the segment between the first
marker occurrence and the next one (the whole remainder when the marker
occurs once) — and when numbered sequences `<digits>.<whitespace>Response
<LETTER>` occur there it returns exactly their trailing ten-character
`Response <LETTER>` portions, in order of appearance (not sorted by the
digit values). -/
theorem parse_ranking_numbered (text : String) (pre rest sect : List Char)
    (tl : List (List Char))
    (h1 : splitFirst markerLit text.data = some (pre, rest))
    (h2 : pySplit markerLit rest = sect :: tl)
    (h3 : scanNumbered sect ≠ []) :
    parse_ranking_from_text text =
      (scanNumbered sect).map (fun m => String.mk (m.drop (m.length - 10))) := by
  rw [parse_unfold_marker h1 h2, if_neg h3]
  apply filterMap_eq_map_of_forall
  intro m hm
  obtain ⟨ds, sp, c, _, hds, hsp, hu, hmeq⟩ := scanNumbered_mem_shape hm
  subst hmeq
  rw [scanResp_shaped hds hsp hu, drop_shaped]
  rfl

/-- C2 witness: on the claim's example (marker, then `1. Response C`,
`2. Response A`, `3. Response B`), the parse is exactly
`["Response C", "Response A", "Response B"]`. -/
theorem parse_ranking_numbered_witness :
    parse_ranking_from_text
        "Some evaluations.\nFINAL RANKING:\n1. Response C\n2. Response A\n3. Response B"
      = ["Response C", "Response A", "Response B"] := by
  have h := parse_ranking_numbered
    "Some evaluations.\nFINAL RANKING:\n1. Response C\n2. Response A\n3. Response B"
    "Some evaluations.\n".data
    "\n1. Response C\n2. Response A\n3. Response B".data
    "\n1. Response C\n2. Response A\n3. Response B".data
    [] (by decide) (by decide) (by decide)
  rw [h]
  decide

/-- C2 counterexample: when the marker occurs twice, the code parses only
the segment between the two occurrences, not the whole text after the
(first) marker: here the post-marker text holds the numbered sequences
`Response A` and `Response B`, yet only `Response A` is returned. -/
theorem parse_ranking_numbered_cex :
    parse_ranking_from_text
        "FINAL RANKING:\n1. Response A\nFINAL RANKING:\n2. Response B"
      = ["Response A"]
    ∧ (scanNumbered "\n1. Response A\nFINAL RANKING:\n2. Response B".data).map
        (fun m => String.mk (m.drop (m.length - 10)))
      = ["Response A", "Response B"]
    ∧ (["Response A"] : List String) ≠ ["Response A", "Response B"] :=
  ⟨by decide, by decide, by decide⟩

/-- C3 (amended): the fallback ladder of `parse_ranking_from_text` — with
no marker the whole text's `Response <LETTER>` occurrences are returned in
order; with the marker present but no numbered match in `parts[1]` (the
segment between the first marker occurrence and the next, the whole
remainder when the marker occurs once) that segment's plain occurrences
are returned in order; and a text with no `Response <uppercase letter>`
occurrence at all parses to the empty sequence. -/
theorem parse_ranking_fallback_ladder :
    (∀ text : String, containsSub markerLit text.data = false →
      parse_ranking_from_text text = scanResp text.data)
    ∧ (∀ (text : String) (pre rest sect : List Char) (tl : List (List Char)),
        splitFirst markerLit text.data = some (pre, rest) →
        pySplit markerLit rest = sect :: tl →
        scanNumbered sect = [] →
        parse_ranking_from_text text = scanResp sect)
    ∧ (∀ text : String, ¬ HasResp text.data →
        parse_ranking_from_text text = []) := by
  refine ⟨?_, ?_, ?_⟩
  · intro text h
    exact parse_no_marker h
  · intro text pre rest sect tl h1 h2 h3
    rw [parse_unfold_marker h1 h2, if_pos h3]
  · intro text h
    cases hc : containsSub markerLit text.data with
    | false =>
      rw [parse_no_marker hc]
      exact (scanResp_nil_iff _).mpr h
    | true =>
      obtain ⟨⟨pre, rest⟩, h1⟩ : ∃ v, splitFirst markerLit text.data = some v := by
        rw [containsSub] at hc
        exact Option.isSome_iff_exists.mp hc
      obtain ⟨sect, tl, h2⟩ : ∃ sect tl, pySplit markerLit rest = sect :: tl := by
        cases hps : pySplit markerLit rest with
        | nil => exact absurd hps (pySplit_ne_nil _ _)
        | cons s t => exact ⟨s, t, rfl⟩
      obtain ⟨u, w, hrest⟩ := pySplit_infixAux rest.length markerLit rest
        le_rfl sect (by rw [h2]; simp)
      obtain ⟨_, hdec⟩ := splitFirst_some_decomp h1
      have hsub : ¬ HasResp sect := by
        intro hr
        apply h
        rw [hdec, hrest]
        have := hasResp_infix (pre ++ markerLit ++ u) sect w hr
        simpa [List.append_assoc] using this
      have hnum : scanNumbered sect = [] := by
        by_contra hne
        exact hsub (scanNumbered_hasResp hne)
      rw [parse_unfold_marker h1 h2, if_pos hnum]
      exact (scanResp_nil_iff _).mpr hsub

/-- C3 counterexample: when the marker occurs twice and no numbered match
follows, the code scans only the segment between the two occurrences, not
the whole post-marker text: the post-marker text holds `Response A` and
`Response B`, yet only `Response A` is returned. -/
theorem parse_ranking_fallback_ladder_cex :
    parse_ranking_from_text
        "FINAL RANKING:\nResponse A\nFINAL RANKING:\nResponse B"
      = ["Response A"]
    ∧ scanResp "\nResponse A\nFINAL RANKING:\nResponse B".data
      = ["Response A", "Response B"]
    ∧ (["Response A"] : List String) ≠ ["Response A", "Response B"] :=
  ⟨by decide, by decide, by decide⟩

/-- C4: `calculate_aggregate_rankings` outputs, sorted ascending by
`average_rank`, exactly one entry per persona with at least one recorded
1-based position under the label mapping (unresolvable labels skipped);
each entry's `average_rank` is the position mean rounded to 2 decimals
and its `rankings_count` the number of positions.  On the example mapping
`{A ↦ Historian, B ↦ Visionary}` with parsed orders `[A, B]` and `[B, A]`,
both personas get `average_rank` 1.5 and `rankings_count` 2. -/
theorem calculate_aggregate_rankings_spec :
    (∀ (stage2 : List Stage2Result) (mapping : List (String × String)),
      List.Sorted (fun a b : AggregateEntry => a.average_rank ≤ b.average_rank)
          (calculate_aggregate_rankings stage2 mapping)
      ∧ (∀ e ∈ calculate_aggregate_rankings stage2 mapping,
          allPositionsFor mapping e.model stage2 ≠ [] ∧
          e.average_rank = round2
            (((allPositionsFor mapping e.model stage2).sum : ℚ) /
              ((allPositionsFor mapping e.model stage2).length : ℚ)) ∧
          e.rankings_count = (allPositionsFor mapping e.model stage2).length)
      ∧ (∀ name : String, allPositionsFor mapping name stage2 ≠ [] →
          ∃ e ∈ calculate_aggregate_rankings stage2 mapping, e.model = name))
    ∧ calculate_aggregate_rankings exRankers exMapping =
        [⟨"Historian", 3 / 2, 2⟩, ⟨"Visionary", 3 / 2, 2⟩] := by
  constructor
  · intro stage2 mapping
    haveI hTot : IsTotal AggregateEntry
        (fun a b => a.average_rank ≤ b.average_rank) :=
      ⟨fun a b => le_total a.average_rank b.average_rank⟩
    haveI hTrans : IsTrans AggregateEntry
        (fun a b => a.average_rank ≤ b.average_rank) :=
      ⟨fun _ _ _ hab hbc => le_trans hab hbc⟩
    refine ⟨?_, ?_, ?_⟩
    · unfold calculate_aggregate_rankings
      exact List.sorted_insertionSort _ _
    · intro e he
      unfold calculate_aggregate_rankings at he
      rw [(List.perm_insertionSort _ _).mem_iff] at he
      obtain ⟨⟨name, ps⟩, hmp, hf⟩ := List.mem_filterMap.mp he
      by_cases hps : ps = []
      · rw [if_pos hps] at hf
        cases hf
      · rw [if_neg hps] at hf
        injection hf with hf
        have hget : alistGet (collectPositions stage2 mapping) name = ps :=
          alistGet_of_mem_nodup (collect_nodup mapping stage2) hmp
        have hall : allPositionsFor mapping name stage2 = ps := by
          rw [← collect_get mapping stage2 name, hget]
        subst hf
        dsimp only
        rw [hall]
        exact ⟨hps, rfl, rfl⟩
    · intro name hne
      have hget : alistGet (collectPositions stage2 mapping) name =
          allPositionsFor mapping name stage2 := collect_get mapping stage2 name
      have hmem : (name, alistGet (collectPositions stage2 mapping) name) ∈
          collectPositions stage2 mapping := by
        apply mem_of_alistGet_ne_nil
        rw [hget]
        exact hne
      rw [hget] at hmem
      refine ⟨⟨name, round2 (((allPositionsFor mapping name stage2).sum : ℚ) /
          ((allPositionsFor mapping name stage2).length : ℚ)),
          (allPositionsFor mapping name stage2).length⟩, ?_, rfl⟩
      unfold calculate_aggregate_rankings
      rw [(List.perm_insertionSort _ _).mem_iff]
      exact List.mem_filterMap.mpr
        ⟨(name, allPositionsFor mapping name stage2), hmem, by rw [if_neg hne]⟩
  · decide
